import Mathlib

/-!
Shallow embedding of the quantum_simulator crate (src/qubit.rs, src/gates.rs,
src/circuit.rs, src/simulator.rs) over exact real arithmetic: Rust f64 values
are modelled as real numbers, num_complex::Complex<f64> as Mathlib's ℂ.
Rust Vec is modelled as List; in-place mutation through &mut references is
modelled by returning the updated value; the uniform random draw consumed by
Qubit::measure is passed as an explicit real argument.
-/

noncomputable section

open Complex

/-- Embedding of num_complex's Complex::new(re, im). -/
def Complex.new (re im : ℝ) : ℂ := ⟨re, im⟩

/-- qubit.rs: `pub struct Qubit { pub state: Vec<Complex<f64>> }`. -/
structure Qubit where
  state : List ℂ

/-- qubit.rs: `Qubit::new()`, the |0⟩ state. -/
def Qubit.new : Qubit :=
  ⟨[Complex.new 1 0, Complex.new 0 0]⟩

/-- qubit.rs: `Qubit::from_state(state)`. -/
def Qubit.from_state (state : List ℂ) : Qubit :=
  ⟨state⟩

/-- qubit.rs: `Qubit::measure(&self)`. The Rust body reads `self.state[0]`,
computes `prob_0 = state[0].norm_sqr()`, draws `random_number` from rand's
uniform [0,1) source, and returns 0 if `random_number < prob_0` else 1.
The draw is passed explicitly; the in-bounds read `state[0]` is modelled by
`getD 0` (every claim about measure assumes a non-empty state, where the
two coincide). -/
def Qubit.measure (q : Qubit) (random_number : ℝ) : Nat :=
  if random_number < Complex.normSq (q.state.getD 0 (Complex.new 0 0)) then 0 else 1

/-- The full effect of the call `q.measure()`: the Rust receiver is `&self`
(a shared borrow with no interior mutability), so the call returns the
sampled index and leaves the qubit exactly as it was; the pair records
both. -/
def Qubit.measureCall (q : Qubit) (random_number : ℝ) : Nat × Qubit :=
  (q.measure random_number, q)

/-- gates.rs: `pub struct Gate { pub matrix: Vec<Vec<Complex<f64>>> }`. -/
structure Gate where
  matrix : List (List ℂ)

/-- gates.rs: `Gate::new(matrix)`. -/
def Gate.new (matrix : List (List ℂ)) : Gate :=
  ⟨matrix⟩

/-- gates.rs: `Gate::apply(&self, qubit: &mut Qubit)`. For each row of the
matrix, `row.iter().zip(&qubit.state)` pairs the row with the state —
Rust's zip stops at the shorter of the two, exactly as List.zip does — and
the new i-th amplitude is the sum of the pairwise products. No dimension
check is performed anywhere in the body. -/
def Gate.apply (g : Gate) (qubit : Qubit) : Qubit :=
  ⟨g.matrix.map fun row => ((row.zip qubit.state).map fun p => p.1 * p.2).sum⟩

/-- gates.rs: `hadamard(qubit_count)`. Entry (i, j) starts a running product
at 1.0 and, for each bit position k below qubit_count, multiplies by h when
bit k of i equals bit k of j and by -h when they differ, h = 1/√2. -/
def hadamard (qubit_count : Nat) : Gate :=
  let h : ℝ := 1 / Real.sqrt 2
  let size : Nat := 2 ^ qubit_count
  Gate.new <|
    (List.range size).map fun i =>
      (List.range size).map fun j =>
        Complex.new
          ((List.range qubit_count).foldl
            (fun product k =>
              if (i >>> k) &&& 1 = (j >>> k) &&& 1 then product * h
              else product * (-h))
            1)
          0

/-- gates.rs: `pauli_x()`. -/
def pauli_x : Gate :=
  Gate.new [[Complex.new 0 0, Complex.new 1 0],
            [Complex.new 1 0, Complex.new 0 0]]

/-- gates.rs: `pauli_y()`. -/
def pauli_y : Gate :=
  Gate.new [[Complex.new 0 0, Complex.new 0 (-1)],
            [Complex.new 0 1, Complex.new 0 0]]

/-- gates.rs: `pauli_z()`. -/
def pauli_z : Gate :=
  Gate.new [[Complex.new 1 0, Complex.new 0 0],
            [Complex.new 0 0, Complex.new (-1) 0]]

/-- gates.rs: `phase(theta)`. -/
def phase (theta : ℝ) : Gate :=
  Gate.new [[Complex.new 1 0, Complex.new 0 0],
            [Complex.new 0 0, Complex.new theta.cos theta.sin]]

/-- gates.rs: `s()`. -/
def s : Gate :=
  Gate.new [[Complex.new 1 0, Complex.new 0 0],
            [Complex.new 0 0, Complex.new 0 1]]

/-- Reading `matrix[r][c]` from a nested-Vec matrix; out-of-range reads are
given defaults (the claims only evaluate in-bounds entries). -/
def matEntry (m : List (List ℂ)) (r c : Nat) : ℂ :=
  (m.getD r []).getD c 0

/-- The Rust assignment `matrix[r][c] = v` on a nested-Vec matrix. -/
def matSet (m : List (List ℂ)) (r c : Nat) (v : ℂ) : List (List ℂ) :=
  m.set r ((m.getD r []).set c v)

/-- gates.rs: `cnot(control, target, num_qubits)`. A size × size zero matrix
(size = 2^num_qubits) is filled by the double loop over i and j, which only
writes when i = j: if bit `control` of i is 1 it sets
matrix[i ^ (1 << target)][j] = 1, otherwise matrix[i][j] = 1. The loop over
i with its single write per iteration is modelled as a fold over
List.range size. -/
def cnot (control target num_qubits : Nat) : Gate :=
  let size : Nat := 2 ^ num_qubits
  Gate.new <|
    (List.range size).foldl
      (fun matrix i =>
        if (i >>> control) &&& 1 = 1 then
          matSet matrix (i ^^^ (1 <<< target)) i (Complex.new 1 0)
        else
          matSet matrix i i (Complex.new 1 0))
      (List.replicate size (List.replicate size (Complex.new 0 0)))

/-- circuit.rs: `pub struct Circuit { gates: Vec<Gate> }`. -/
structure Circuit where
  gates : List Gate

/-- circuit.rs: `Circuit::new()`. -/
def Circuit.new : Circuit :=
  ⟨[]⟩

/-- circuit.rs: `Circuit::add_gate(&mut self, gate)`. -/
def Circuit.add_gate (c : Circuit) (gate : Gate) : Circuit :=
  ⟨c.gates ++ [gate]⟩

/-- circuit.rs: `Circuit::run(&self, qubit: &mut Qubit)`: `for gate in
&self.gates { gate.apply(qubit) }`, i.e. a left fold of Gate::apply over the
gates in insertion order. -/
def Circuit.run (c : Circuit) (qubit : Qubit) : Qubit :=
  c.gates.foldl (fun q g => g.apply q) qubit

/-- simulator.rs: `Simulator::run(circuit, initial_state)`: wraps the initial
amplitudes with Qubit::from_state, runs the circuit on the fresh qubit, and
returns it. -/
def Simulator.run (circuit : Circuit) (initial_state : List ℂ) : Qubit :=
  circuit.run (Qubit.from_state initial_state)

/-- The measurement pipeline exercised by main.rs: evolve the initial state
through the circuit, then sample one measurement with the draw r. The
evolution consumes no randomness; only the final measure call does. -/
def runAndMeasure (circuit : Circuit) (initial_state : List ℂ) (r : ℝ) :
    Qubit × Nat :=
  (Simulator.run circuit initial_state,
   (Simulator.run circuit initial_state).measure r)

/-- Number of 1 bits of a natural number (the popcount of the spec's closed
form for the Hadamard entries). -/
def popcount (n : Nat) : Nat :=
  n.bits.count true

/-- Modelled from the spec (the cumulative-probability walk that claim C4
ascribes to Qubit::measure, which the Rust body does not contain): scan the
amplitudes in index order, keeping the part of the draw not yet covered;
return the first index whose squared magnitude pushes the cumulative mass
past the draw, falling back to the last index when the list is exhausted. -/
def cumulativeWalk : List ℂ → ℝ → Nat → Nat
  | [], _, i => i - 1
  | a :: rest, r, i =>
      if r < Complex.normSq a then i
      else cumulativeWalk rest (r - Complex.normSq a) (i + 1)

/-- Modelled from the spec: the measurement result claim C4 describes —
the cumulative walk started at index 0 with the full draw. -/
def measureSpecWalk (state : List ℂ) (r : ℝ) : Nat :=
  cumulativeWalk state r 0

/-- Shape invariant of the nested-Vec matrices built by the gate factories:
sz rows, each of length sz. -/
def matWF (m : List (List ℂ)) (sz : Nat) : Prop :=
  m.length = sz ∧ ∀ row ∈ m, row.length = sz

/-- The row where column i's single 1 lands: the cnot loop body writes
matrix[i ^ (1 << target)][i] when bit control of i is 1 and matrix[i][i]
otherwise. -/
def cnotRow (control target i : Nat) : Nat :=
  if (i >>> control) &&& 1 = 1 then i ^^^ (1 <<< target) else i

@[simp]
lemma Complex.new_re (a b : ℝ) : (Complex.new a b).re = a := rfl

@[simp]
lemma Complex.new_im (a b : ℝ) : (Complex.new a b).im = b := rfl

@[simp]
lemma Complex.new_eq_ofReal (a : ℝ) : Complex.new a 0 = (a : ℂ) := by
  refine Complex.ext rfl ?_
  simp [Complex.new]

lemma getD_set_self {α : Type} (l : List α) (i : Nat) (a d : α)
    (h : i < l.length) : (l.set i a).getD i d = a := by
  rw [List.getD_eq_getElem?_getD, List.getElem?_set]
  simp [h]

lemma getD_set_of_ne {α : Type} (l : List α) {i j : Nat} (a d : α)
    (h : i ≠ j) : (l.set i a).getD j d = l.getD j d := by
  rw [List.getD_eq_getElem?_getD, List.getElem?_set, if_neg h,
    ← List.getD_eq_getElem?_getD]

lemma getD_replicate {α : Type} (n i : Nat) (a d : α) :
    (List.replicate n a).getD i d = if i < n then a else d := by
  rw [List.getD_eq_getElem?_getD, List.getElem?_replicate]
  split <;> simp

lemma matWF_replicate (sz : Nat) (v : ℂ) :
    matWF (List.replicate sz (List.replicate sz v)) sz := by
  constructor
  · simp
  · intro row hrow
    rw [List.eq_of_mem_replicate hrow]
    simp

lemma matWF_getD_length {m : List (List ℂ)} {sz r : Nat}
    (hwf : matWF m sz) (hr : r < sz) : (m.getD r []).length = sz := by
  have hrl : r < m.length := hwf.1 ▸ hr
  rw [List.getD_eq_getElem?_getD, List.getElem?_eq_getElem hrl]
  exact hwf.2 _ (List.getElem_mem hrl)

lemma matWF_matSet {m : List (List ℂ)} {sz : Nat} (r₀ c₀ : Nat) (v : ℂ)
    (hwf : matWF m sz) (hr : r₀ < sz) : matWF (matSet m r₀ c₀ v) sz := by
  constructor
  · simp [matSet, hwf.1]
  · intro row hrow
    rcases List.mem_or_eq_of_mem_set hrow with h | h
    · exact hwf.2 _ h
    · rw [h, List.length_set]
      exact matWF_getD_length hwf hr

lemma matEntry_matSet {m : List (List ℂ)} {sz : Nat} (r₀ c₀ : Nat) (v : ℂ)
    (hwf : matWF m sz) (hr : r₀ < sz) (hc : c₀ < sz) (r c : Nat) :
    matEntry (matSet m r₀ c₀ v) r c =
      if r = r₀ ∧ c = c₀ then v else matEntry m r c := by
  have hrl : r₀ < m.length := hwf.1 ▸ hr
  have hrow : (m.getD r₀ []).length = sz := matWF_getD_length hwf hr
  unfold matEntry matSet
  by_cases hrr : r = r₀
  · subst hrr
    rw [getD_set_self _ _ _ _ hrl]
    by_cases hcc : c = c₀
    · subst hcc
      rw [getD_set_self _ _ _ _ (hrow ▸ hc)]
      simp
    · rw [getD_set_of_ne _ _ _ (fun h => hcc h.symm)]
      simp [hcc]
  · rw [getD_set_of_ne _ _ _ (fun h => hrr h.symm)]
    simp [hrr]

lemma matEntry_replicate_zero (sz r c : Nat) :
    matEntry (List.replicate sz (List.replicate sz (Complex.new 0 0))) r c = 0 := by
  unfold matEntry
  rw [getD_replicate]
  rcases lt_or_ge r sz with h | h
  · rw [if_pos h, getD_replicate]
    split <;> simp
  · rw [if_neg (Nat.not_lt.mpr h)]
    simp

lemma cnot_step_eq (control target : Nat) :
    (fun (matrix : List (List ℂ)) (i : Nat) =>
        if (i >>> control) &&& 1 = 1 then
          matSet matrix (i ^^^ (1 <<< target)) i (Complex.new 1 0)
        else
          matSet matrix i i (Complex.new 1 0)) =
      fun matrix i => matSet matrix (cnotRow control target i) i (Complex.new 1 0) := by
  funext m i
  unfold cnotRow
  split <;> rfl

lemma cnot_foldl_entry (control target sz : Nat)
    (hroute : ∀ i, i < sz → cnotRow control target i < sz) :
    ∀ (L : List Nat) (m : List (List ℂ)), (∀ i ∈ L, i < sz) → matWF m sz →
    ∀ r c, r < sz → c < sz →
    matEntry
        (L.foldl (fun mm i => matSet mm (cnotRow control target i) i (Complex.new 1 0)) m)
        r c =
      if c ∈ L ∧ r = cnotRow control target c then Complex.new 1 0
      else matEntry m r c := by
  intro L
  induction L with
  | nil =>
      intro m _ _ r c _ _
      simp
  | cons i L' ih =>
      intro m hL hwf r c hr hc
      have hi : i < sz := hL i (List.mem_cons_self i L')
      have hL' : ∀ j ∈ L', j < sz := fun j hj => hL j (List.mem_cons_of_mem i hj)
      have hwf' : matWF (matSet m (cnotRow control target i) i (Complex.new 1 0)) sz :=
        matWF_matSet _ _ _ hwf (hroute i hi)
      rw [List.foldl_cons, ih _ hL' hwf' r c hr hc,
        matEntry_matSet _ _ _ hwf (hroute i hi) hi r c]
      by_cases h1 : c ∈ L' ∧ r = cnotRow control target c
      · rw [if_pos h1, if_pos ⟨List.mem_cons_of_mem i h1.1, h1.2⟩]
      · rw [if_neg h1]
        by_cases h2 : r = cnotRow control target i ∧ c = i
        · rw [if_pos h2, if_pos ⟨h2.2 ▸ List.mem_cons_self i L', by rw [h2.2]; exact h2.1⟩]
        · rw [if_neg h2, if_neg ?_]
          rintro ⟨hmem, hrr⟩
          rcases List.mem_cons.mp hmem with hci | hcL
          · exact h2 ⟨hci ▸ hrr, hci⟩
          · exact h1 ⟨hcL, hrr⟩

lemma matWF_foldl (control target sz : Nat)
    (hroute : ∀ i, i < sz → cnotRow control target i < sz) :
    ∀ (L : List Nat) (m : List (List ℂ)), (∀ i ∈ L, i < sz) → matWF m sz →
    matWF
      (L.foldl (fun mm i => matSet mm (cnotRow control target i) i (Complex.new 1 0)) m)
      sz := by
  intro L
  induction L with
  | nil =>
      intro m _ hwf
      simpa using hwf
  | cons i L' ih =>
      intro m hL hwf
      rw [List.foldl_cons]
      exact ih _ (fun j hj => hL j (List.mem_cons_of_mem i hj))
        (matWF_matSet _ _ _ hwf (hroute i (hL i (List.mem_cons_self i L'))))

lemma cnot_matrix_eq (control target n : Nat) :
    (cnot control target n).matrix =
      (List.range (2 ^ n)).foldl
        (fun mm i => matSet mm (cnotRow control target i) i (Complex.new 1 0))
        (List.replicate (2 ^ n) (List.replicate (2 ^ n) (Complex.new 0 0))) := by
  simp only [cnot, Gate.new, cnot_step_eq]

/-- Claim C1 (code_bug evidence): the claim asserts hadamard(n) entry (i, j)
is h^n · (−1)^popcount(i AND j) — the standard tensor-power Hadamard. The
code evaluated at qubit_count 1, entry (1, 1), yields +h (it flips the sign
when the bits differ instead of when both are 1), which is not the claimed
value h^1 · (−1)^popcount(1 AND 1) = −h. -/
theorem hadamard_entry_sign_bug :
    matEntry (hadamard 1).matrix 1 1 = Complex.new (1 / Real.sqrt 2) 0 ∧
    matEntry (hadamard 1).matrix 1 1 ≠
      Complex.new ((1 / Real.sqrt 2) ^ 1 * (-1) ^ popcount (1 &&& 1)) 0 := by
  have hm : matEntry (hadamard 1).matrix 1 1 = Complex.new (1 / Real.sqrt 2) 0 := by
    simp [hadamard, Gate.new, List.range_succ, matEntry, List.getD]
  have hpop : popcount (1 &&& 1) = 1 := by
    simp [popcount]
  refine ⟨hm, ?_⟩
  rw [hm, hpop]
  intro hcontra
  have hre := congrArg Complex.re hcontra
  simp at hre
  have hs : 0 < Real.sqrt 2 := by positivity
  nlinarith [hre, hs]

/-- Claim C2 (code_bug evidence): the claim asserts hadamard(n) is
self-inverse on every state. The code's hadamard(1) applied twice to the
basis state [1, 0] yields [1, −1], not the original state (the deviation in
the second amplitude is 1, far beyond any floating tolerance): the
mis-signed Hadamard of claim C1 is singular, so the double application
cannot return the input. -/
theorem hadamard_twice_not_identity :
    (hadamard 1).apply ((hadamard 1).apply (Qubit.from_state [1, 0])) =
      Qubit.from_state [1, -1] ∧
    Qubit.from_state ([1, -1] : List ℂ) ≠ Qubit.from_state [1, 0] := by
  have h2 : Real.sqrt 2 * Real.sqrt 2 = 2 := Real.mul_self_sqrt (by norm_num)
  constructor
  · simp [hadamard, Gate.new, Gate.apply, Qubit.from_state, List.range_succ]
    have hc2 : ((Real.sqrt 2 : ℝ) : ℂ) * ((Real.sqrt 2 : ℝ) : ℂ) = 2 := by
      norm_cast
    constructor
    · push_cast
      field_simp
      rw [hc2]
      norm_num
    · push_cast
      field_simp
      rw [hc2]
      norm_num
  · intro hcontra
    have := congrArg Qubit.state hcontra
    simp [Qubit.from_state] at this

/-- Claim C3 counterexample: applying the 4×4 operator cnot(0, 1, 2) to the
length-2 state [1, 0] does not fail — Gate::apply has no error path at all —
and silently produces the length-4 state [1, 0, 0, 0] (each row is zipped
against the short state, truncating the row), so the operation does pad the
state rather than failing deterministically. -/
theorem apply_dimension_mismatch_no_error :
    (cnot 0 1 2).apply (Qubit.from_state [1, 0]) = Qubit.from_state [1, 0, 0, 0] ∧
    (Qubit.from_state ([1, 0] : List ℂ)).state.length = 2 ∧
    ((cnot 0 1 2).apply (Qubit.from_state [1, 0])).state.length = 4 := by
  have hmat : (cnot 0 1 2).matrix =
      [[Complex.new 1 0, 0, 0, 0],
       [0, 0, 0, Complex.new 1 0],
       [0, 0, Complex.new 1 0, 0],
       [0, Complex.new 1 0, 0, 0]] := by
    have h4 : (2 : ℕ) ^ 2 = 4 := by norm_num
    simp only [cnot, Gate.new, h4]
    simp [List.range_succ, matSet, List.getD, List.set]
  refine ⟨?_, rfl, ?_⟩
  · show Gate.apply _ _ = _
    rw [Gate.apply, hmat]
    simp [Qubit.from_state]
  · show (Gate.apply _ _).state.length = 4
    rw [Gate.apply, hmat]
    simp

/-- Claim C3 amended: Gate::apply never signals an error condition: it is a
total function whose result always has exactly one amplitude per matrix row
(the operator's dimension), whatever the length of the incoming state —
dimension mismatches are silently absorbed by zip truncation, and nothing
propagates to Circuit::run or Simulator::run. -/
theorem apply_length_eq_matrix_length (g : Gate) (q : Qubit) :
    ((g.apply q).state).length = g.matrix.length := by
  simp [Gate.apply]

/-- Claim C4 counterexample: on the 4-amplitude state [0, 0, 1, 0] with draw
1/2, the cumulative-probability walk the claim describes returns index 2,
but Qubit::measure returns 1 — the code only compares the draw against
|state[0]|² and never walks the remaining amplitudes. -/
theorem measure_ignores_cumulative_walk :
    (Qubit.from_state [0, 0, 1, 0]).measure (1 / 2) = 1 ∧
    measureSpecWalk [0, 0, 1, 0] (1 / 2) = 2 := by
  constructor
  · simp [Qubit.measure, Qubit.from_state, List.getD]
  · simp [measureSpecWalk, cumulativeWalk]
    norm_num

/-- Claim C4 amended: for every state vector (of any length) and every draw,
Qubit::measure performs a single Bernoulli comparison of the draw against
|amplitude[0]|², returning 0 on success and 1 otherwise; in particular the
result is never an index greater than 1, so indices 2..n−1 are impossible
outcomes and no cumulative-probability walk takes place. -/
theorem measure_bernoulli_le_one (q : Qubit) (r : ℝ) :
    q.measure r =
      (if r < Complex.normSq (q.state.getD 0 (Complex.new 0 0)) then 0 else 1) ∧
    q.measure r ≤ 1 := by
  refine ⟨rfl, ?_⟩
  unfold Qubit.measure
  split <;> simp

/-- Claim C5: for control ≠ target both below num_qubits, cnot builds a
2^num_qubits × 2^num_qubits matrix in which each column i holds a single 1 —
at row i XOR (1 << target) when bit control of i is 1 and at row i
otherwise — and every other entry is 0. -/
theorem cnot_entry_characterization (control target n : Nat)
    (hct : control ≠ target) (hcn : control < n) (htn : target < n) :
    matWF (cnot control target n).matrix (2 ^ n) ∧
    ∀ r c, r < 2 ^ n → c < 2 ^ n →
      matEntry (cnot control target n).matrix r c =
        if (c >>> control) &&& 1 = 1 then
          (if r = c ^^^ (1 <<< target) then Complex.new 1 0 else 0)
        else
          (if r = c then Complex.new 1 0 else 0) := by
  have hroute : ∀ i, i < 2 ^ n → cnotRow control target i < 2 ^ n := by
    intro i hi
    unfold cnotRow
    split
    · refine Nat.xor_lt_two_pow hi ?_
      rw [Nat.one_shiftLeft]
      exact Nat.pow_lt_pow_right (by norm_num) htn
    · exact hi
  constructor
  · rw [cnot_matrix_eq]
    exact matWF_foldl control target (2 ^ n) hroute _ _ (by simp) (matWF_replicate _ _)
  · intro r c hr hc
    rw [cnot_matrix_eq,
      cnot_foldl_entry control target (2 ^ n) hroute (List.range (2 ^ n)) _
        (by simp) (matWF_replicate _ _) r c hr hc,
      matEntry_replicate_zero]
    have hmem : c ∈ List.range (2 ^ n) := List.mem_range.mpr hc
    unfold cnotRow
    by_cases hbit : (c >>> control) &&& 1 = 1
    · simp only [if_pos hbit]
      by_cases hrr : r = c ^^^ (1 <<< target)
      · rw [if_pos ⟨hmem, hrr⟩, if_pos hrr]
      · rw [if_neg (fun h => hrr h.2), if_neg hrr]
    · simp only [if_neg hbit]
      by_cases hrr : r = c
      · rw [if_pos ⟨hmem, hrr⟩, if_pos hrr]
      · rw [if_neg (fun h => hrr h.2), if_neg hrr]

/-- Witness for claim C5 at control 0, target 1, num_qubits 2: the
hypotheses hold, the matrix is 4 × 4, and column 1 (whose control bit is 1)
carries its 1 at row 1 XOR 2 = 3. -/
theorem cnot_entry_characterization_witness :
    ((0 : Nat) ≠ 1 ∧ (0 : Nat) < 2 ∧ (1 : Nat) < 2) ∧
    matWF (cnot 0 1 2).matrix (2 ^ 2) ∧
    matEntry (cnot 0 1 2).matrix 3 1 = Complex.new 1 0 := by
  have h := cnot_entry_characterization 0 1 2 (by norm_num) (by norm_num) (by norm_num)
  refine ⟨by norm_num, h.1, ?_⟩
  have h2 := h.2 3 1 (by norm_num) (by norm_num)
  simpa using h2

/-- Claim C6: Simulator::run wraps the initial amplitudes with
Qubit::from_state and then applies the gates sequentially in insertion
order: an empty circuit returns the wrapped state unchanged, and a circuit
g :: gs first applies g and feeds its output to the remaining gates. -/
theorem simulator_run_sequential (g : Gate) (gs : List Gate) (st : List ℂ) :
    Simulator.run (Circuit.mk []) st = Qubit.from_state st ∧
    Simulator.run (Circuit.mk (g :: gs)) st =
      Circuit.run (Circuit.mk gs) (g.apply (Qubit.from_state st)) := by
  constructor
  · rfl
  · rfl

/-- Claim C7: the call q.measure() leaves the stored amplitude vector
untouched — the receiver is an immutable borrow, so the qubit after the
call is exactly the qubit before it, and the only output is the sampled
index. -/
theorem measure_preserves_state (q : Qubit) (r : ℝ) :
    (q.measureCall r).2 = q ∧ (q.measureCall r).1 = q.measure r := by
  exact ⟨rfl, rfl⟩

/-- Claim C8: the matrix of s() is entry-for-entry the matrix of
phase(π/2): cos(π/2) = 0 and sin(π/2) = 1, so both are
[[1, 0], [0, e^{iπ/2}]], and the (1, 1) entry of s() equals
Complex(cos(π/2), sin(π/2)). -/
theorem s_eq_phase_pi_div_two :
    phase (Real.pi / 2) = s ∧
    matEntry s.matrix 1 1 =
      Complex.new (Real.cos (Real.pi / 2)) (Real.sin (Real.pi / 2)) := by
  constructor
  · simp [phase, s, Real.cos_pi_div_two, Real.sin_pi_div_two]
  · simp [s, matEntry, Gate.new, Real.cos_pi_div_two, Real.sin_pi_div_two,
      List.getD]

/-- Claim C9: in the run-then-measure pipeline the evolved state is a pure
function of the circuit and the initial amplitudes alone — it does not
depend on the random draw, which only the final measure call consumes; two
invocations with identical circuits and identical initial states therefore
produce identical final amplitude vectors. -/
theorem run_independent_of_draw (c : Circuit) (st : List ℂ) (r₁ r₂ : ℝ) :
    (runAndMeasure c st r₁).1 = (runAndMeasure c st r₂).1 := rfl

/-- Claim C10: for every qubit with at least one amplitude and every draw in
[0, 1), measure returns 0 exactly when the draw is below |state[0]|², and
its only possible return values are 0 and 1, whatever the length of the
state vector. -/
theorem measure_bernoulli_zero_or_one (q : Qubit) (r : ℝ)
    (hne : q.state ≠ []) (h0 : 0 ≤ r) (h1 : r < 1) :
    (q.measure r = 0 ↔ r < Complex.normSq (q.state.getD 0 (Complex.new 0 0))) ∧
    (q.measure r = 0 ∨ q.measure r = 1) := by
  unfold Qubit.measure
  constructor
  · split <;> simp_all
  · split <;> simp

/-- Witness for claim C10 at the |0⟩ qubit with draw 1/2: the state is
non-empty, the draw lies in [0, 1), and measure returns 0 or 1. -/
theorem measure_bernoulli_zero_or_one_witness :
    Qubit.new.state ≠ [] ∧
    (Qubit.new.measure (1 / 2) = 0 ∨ Qubit.new.measure (1 / 2) = 1) :=
  ⟨by simp [Qubit.new], (measure_bernoulli_zero_or_one Qubit.new (1 / 2)
      (by simp [Qubit.new]) (by norm_num) (by norm_num)).2⟩

end
